import Mathlib

/-!
# Shallow embedding of the Chord DHT implementation (correct-chord-go)

This file embeds, in Lean 4, the parts of the Go Chord implementation that the
correctness claims are about: vnode handles, the per-vnode successor list and
its maintenance operations (`knownSuccessors`, `SkipSuccessor`,
`checkNewSuccessor`), the `Notify` handler, the join variants, ring creation
(`setLocalSuccessors`), key lookup (`Ring.Lookup` / `FindSuccessors`), the
per-vnode key/value store, the randomized event generator, and the
`atmostOneRing` correctness invariant.

Conventions of the embedding:
* Chord identifiers are SHA1 outputs in Go: fixed-length big-endian byte
  strings compared with `bytes.Compare` and printed in hex by
  `Vnode.String()`.  Equal-length big-endian byte strings compare exactly as
  the natural numbers they denote, and two of them are equal iff their hex
  strings are equal, so identifiers are embedded as `Nat`.
* A Go `*Vnode` (a possibly-nil pointer) is embedded as `Option Vnode`.
* A Go function that can panic (nil dereference, out-of-range index or slice)
  returns `Option _`; `none` models the panic.
* Transport calls (`GetPredecessor`, `Ping`, `FindSuccessors` on a peer) are
  parameters of the functions that perform them: the local-transport
  implementation is not part of the embedded sources, and the claims
  quantify over the peers' behaviour.
* Functions from the `global` utility package (`Between`, `BetweenRightIncl`,
  `Min`, `ERROR_KEY_NOT_FOUND`) are not part of the embedded sources either;
  they are modelled from the specification and marked as such.
-/

/-- A vnode handle, from `localNode.go`: `type Vnode struct { Num int; Id []byte; Host string }`.
`Id` is embedded as a `Nat` (see the file comment). -/
structure Vnode where
  num : Nat
  id : Nat
  host : String
  deriving DecidableEq, Repr

/-- Modelled from the spec: `global.Between` (the `global` package is not among
the given sources).  "`between(a, b, x)` — true iff x lies strictly in the open
arc (a, b) going clockwise on the identifier circle; if a == b, the arc is the
whole circle minus the point a." -/
def between (a b x : Nat) : Bool :=
  if a < b then a < x && x < b
  else if b < a then a < x || x < b
  else x != a

/-- Modelled from the spec: `global.BetweenRightIncl` (the `global` package is
not among the given sources).  "`between_right_inclusive(a, b, x)` — same arc,
half-open (a, b]"; and "`between_right_inclusive(a, a, x)` is true for all x". -/
def betweenRightIncl (a b x : Nat) : Bool :=
  if a < b then a < x && x ≤ b
  else if b < a then a < x || x ≤ b
  else true

/-- Modelled from the spec: `global.Min` on `int` (the `global` package is not
among the given sources).  Go `int` is signed; for ring creation the second
argument is `numV - 1`, so the subtraction is embedded on `Int`. -/
def goMin (a b : Int) : Int :=
  if a < b then a else b

/-- Modelled from the spec: `global.ERROR_KEY_NOT_FOUND` (the `global` package
is not among the given sources).  The spec's storage contract says `get` fails
with `key not found` and the REPL round-trip prints `Key Not Found`. -/
def ERROR_KEY_NOT_FOUND : String := "Key Not Found"

/-! ## Storage (`storage.go`, `dataStore`)

The Go store is `data map[string]string`; a Go map is extensionally a partial
function from keys to values, embedded as `String → Option String`. -/

/-- The per-vnode key/value store: the embedding of `dataStore.data`. -/
def DataStore := String → Option String

/-- The empty store, as made by `NewDataStore`. -/
def DataStore.empty : DataStore := fun _ => none

/-- `dataStore.Get` from `storage.go`: look the key up; a miss returns the
`ERROR_KEY_NOT_FOUND` error. -/
def DataStore.get (d : DataStore) (key : String) : Except String String :=
  match d key with
  | some val => Except.ok val
  | none => Except.error ERROR_KEY_NOT_FOUND

/-- `dataStore.Set` from `storage.go`: `d.data[key] = value; return nil`.
The second component is the returned error, always `none` (Go `nil`). -/
def DataStore.set (d : DataStore) (key value : String) : DataStore × Option String :=
  (fun k => if k = key then some value else d k, none)

/-- `dataStore.Delete` from `storage.go`: `delete(d.data, key); return nil`.
The second component is the returned error, always `none` (Go `nil`). -/
def DataStore.delete (d : DataStore) (key : String) : DataStore × Option String :=
  (fun k => if k = key then none else d k, none)

/-! ## Event generation (`ring.go`, `generateEvents`)

`generateEvents` draws `rand.Intn(10)` per event; the draw sequence is the
input of the embedding. -/

/-- The body of the loop in `Ring.generateEvents` (`ring.go`): classify one
uniform draw `val = rand.Intn(10)`:
`if val < 7 { "join" } else if val < 10 { "leave" } else { "fail" }`. -/
def eventOfDraw (val : Nat) : String :=
  if val < 7 then "join"
  else if val < 10 then "leave"
  else "fail"

/-- `Ring.generateEvents` (`ring.go`): map the classifier over the `num`
uniform draws. -/
def generateEvents (draws : List Nat) : List String :=
  draws.map eventOfDraw

/-! ## Successor-list helpers (`localNode.go`) -/

/-- Go `copy(dst, src)`: overwrite the first `min |dst| |src|` entries of `dst`
with those of `src`, keeping the rest of `dst`. -/
def goCopy {α : Type} (dst src : List α) : List α :=
  src.take dst.length ++ dst.drop src.length

/-- `vn.successors[0]` read on the (never empty in Go) successor array; on the
empty list the read is a panic, folded into `none` here. -/
def head0 (l : List (Option Vnode)) : Option Vnode :=
  l.headD none

/-- `localVnode.knownSuccessors` (`localNode.go`): scan the whole successor
array, remembering `i+1` at every non-nil slot; the final value is one past
the last non-nil index (`0` when every slot is nil). -/
def knownSuccessors (succs : List (Option Vnode)) : Nat :=
  (List.range succs.length).foldl
    (fun acc i => if (succs.getD i none).isSome then i + 1 else acc) 0

/-- `copy(vn.successors[0:], vn.successors[1:])` (`localNode.go`, used by the
successor-list walk of `checkNewSuccessor` and by `SkipSuccessor`): shift the
array left by one; the last slot keeps its old value. -/
def shiftLeft (l : List (Option Vnode)) : List (Option Vnode) :=
  goCopy l l.tail

/-- `localVnode.SkipSuccessor` (`localNode.go`).  The handler dereferences
`vn.successors[0].String()` before anything else, so a nil head (or an empty
array) is a panic, modelled by `none`.  On a match it shifts the list left and
nils the slot `known - 1`; otherwise it leaves the list unchanged.
(`Vnode.String()` prints the id in hex, so string equality is id equality.) -/
def skipSuccessor (succs : List (Option Vnode)) (s : Vnode) :
    Option (List (Option Vnode)) :=
  match head0 succs with
  | none => none
  | some h =>
    if h.id = s.id then
      let known := knownSuccessors succs
      some ((shiftLeft succs).set (known - 1) none)
    else
      some succs

/-! ## Join variants (`localNode.go`, `join` / `joinNew`)

Both are called on a freshly initialized vnode and ask the seed's
`FindSuccessors` (first return component embedded as `fs n key`); the seed's
behaviour is a parameter.  Both return the Go pair `(returned vnode, error)`
together with the vnode's successor array after the call; `none` models the
Go runtime panics (indexing an empty result slice, dereferencing a nil head). -/

/-- `localVnode.join` (`localNode.go`), the old variant:
`find_successors(seed, 1, self.id)`; write the single result into
`successors[0]`; error `"no successors found"` when that result is nil. -/
def joinOld (fs : Nat → Nat → Except String (List (Option Vnode))) (selfId : Nat)
    (succs : List (Option Vnode)) : Option (Except String Vnode × List (Option Vnode)) :=
  match fs 1 selfId with
  | Except.error e => some (Except.error e, succs)
  | Except.ok res =>
    match res with
    | [] => none
    | s0 :: _ =>
      let succs' := succs.set 0 s0
      match s0 with
      | some s => some (Except.ok s, succs')
      | none => some (Except.error "no successors found", succs')

/-- `localVnode.joinNew` (`localNode.go`), the corrected variant:
`find_successors(seed, NumSuccessors, self.id)`; copy every returned vnode
into `successors[i]` in order (`for i := range successors`, a panic when the
result is longer than the array), then read `successors[0].Num` for the log
line (a panic when the result is empty or its head nil). -/
def joinNew (fs : Nat → Nat → Except String (List (Option Vnode))) (numSuccessors selfId : Nat)
    (succs : List (Option Vnode)) : Option (Except String Vnode × List (Option Vnode)) :=
  match fs numSuccessors selfId with
  | Except.error e => some (Except.error e, succs)
  | Except.ok res =>
    if succs.length < res.length then none
    else
      let succs' := goCopy succs res
      match res with
      | [] => none
      | none :: _ => none
      | some s0 :: _ => some (Except.ok s0, succs')

/-! ## The `Notify` RPC handler (`localNode.go`) -/

/-- `localVnode.Notify` (`localNode.go`): adopt `maybePred` when the current
predecessor is nil or `Between(predecessor.Id, self.Id, maybePred.Id)`
(firing the delegate's `NewPredecessor` callback); in every case return the
successor list with a nil error.  The result is `(new predecessor, returned
successor list, returned error, whether the caller was adopted — i.e.
whether the `NewPredecessor` delegate callback was enqueued)`. -/
def notifyHandler (pred : Option Vnode) (selfId : Nat) (succs : List (Option Vnode))
    (maybePred : Vnode) : Option Vnode × List (Option Vnode) × Option String × Bool :=
  match pred with
  | none => (some maybePred, succs, none, true)
  | some p =>
    if between p.id selfId maybePred.id then (some maybePred, succs, none, true)
    else (some p, succs, none, false)

/-! ## Ring snapshots and the `atmostOneRing` invariant (`storage.go`)

A snapshot records, for each local vnode, its handle and its successor array
(and finger table).  `atmostOneRing` keys its member map by `Vnode.String()`,
i.e. by id. -/

/-- A local vnode as the invariant checkers see it: the embedding of
`localVnode`'s handle, successor array and finger table. -/
structure LocalVnodeEmb where
  vn : Vnode
  successors : List (Option Vnode)
  finger : List (Option Vnode)
  deriving DecidableEq, Repr

/-- The ids of the ring's members (`ringList` in `storage.go`, and the keys of
`succMap`). -/
def liveIds (vns : List LocalVnodeEmb) : List Nat :=
  vns.map (fun v => v.vn.id)

/-- `succMap[key]` (`storage.go`): the Go map is built by inserting every
vnode keyed by its id string, so on duplicate ids the last insertion wins. -/
def succMapFind (vns : List LocalVnodeEmb) (key : Nat) : Option LocalVnodeEmb :=
  vns.reverse.find? (fun v => v.vn.id = key)

/-- One hop of the successor walk in `atmostOneRing` (`storage.go`):
`if succMap[node.String()] == nil { node = nil } else { node = succMap[node.String()].successors[0] }`. -/
def stepOf (vns : List LocalVnodeEmb) (x : Nat) : Option Nat :=
  match succMapFind vns x with
  | none => none
  | some vn => (head0 vn.successors).map (fun v => v.id)

/-- The walk loop of `atmostOneRing` (`storage.go`), accumulator style:
while the current node is non-nil, differs from the start, and fewer than
`fuel` (= `len(ringList)`) hops have been made, append the node's id to
`succList` and hop via `stepOf`. -/
def walkAux (vns : List LocalVnodeEmb) (start : Nat) :
    Nat → Option Nat → List Nat → List Nat
  | 0, _, acc => acc
  | fuel + 1, node, acc =>
    match node with
    | none => acc
    | some x =>
      if x = start then acc
      else walkAux vns start fuel (stepOf vns x) (acc ++ [x])

/-- The `succList` built by `atmostOneRing` (`storage.go`): seeded with
`vnodes[0]`'s id, the walk starts at `vnodes[0].successors[0]` and runs for at
most `len(ringList)` hops.  `ring.vnodes[0]` on an empty ring is a panic,
modelled by `none`. -/
def atmostSuccList (vns : List LocalVnodeEmb) : Option (List Nat) :=
  match vns with
  | [] => none
  | first :: _ =>
    some (walkAux vns first.vn.id vns.length
      ((head0 first.successors).map (fun v => v.id)) [first.vn.id])

/-- `atmostOneRing` (`storage.go`): after the walk, succeed iff
`len(succList) == len(ringList)`. -/
def atmostOneRing (vns : List LocalVnodeEmb) : Option Bool :=
  (atmostSuccList vns).map (fun succList => succList.length == vns.length)

/-- The walk's visited-id list (the `succList` of `atmostOneRing`, with `[]`
for the empty-ring panic case). -/
def walkIds (vns : List LocalVnodeEmb) : List Nat :=
  (atmostSuccList vns).getD []

/-! ## Ring creation and lookup (`ring.go`) -/

/-- `Ring.setLocalSuccessors` (`ring.go`): with the vnodes already sorted,
fill the first `min(NumSuccessors, numV-1)` slots of each vnode's
length-`NumSuccessors` successor array with the following vnodes in ring
order; the remaining slots stay nil.  Go's `numV - 1` is a signed `int`,
hence the subtraction and `global.Min` are taken over `Int`. -/
def setLocalSuccessors (numSuccessors : Nat) (vns : List Vnode) :
    List (List (Option Vnode)) :=
  let numV := vns.length
  let numSuc := goMin numSuccessors ((numV : Int) - 1)
  (List.range numV).map (fun idx =>
    (List.range numSuccessors).map (fun i =>
      if Int.ofNat i < numSuc then vns.get? (Nat.mod (idx + i + 1) numV) else none))

/-- The local vnodes after `Create` (`ring.go`): each sorted vnode paired with
its `setLocalSuccessors` successor array; fingers start nil
(`make([]*Vnode, hashBits)`). -/
def createVnodes (numSuccessors hashBits : Nat) (vns : List Vnode) :
    List LocalVnodeEmb :=
  (vns.zip (setLocalSuccessors numSuccessors vns)).map
    (fun p => ⟨p.1, p.2, List.replicate hashBits none⟩)

/-- `Ring.nearestVnode` (`ring.go`): scan the sorted vnode array backwards for
the first vnode with id below the key; fall back to the last vnode.  On an
empty ring `vnodes[len-1]` is a panic, modelled by `none`. -/
def nearestVnode (vns : List LocalVnodeEmb) (key : Nat) : Option LocalVnodeEmb :=
  match vns.reverse.find? (fun v => v.vn.id < key) with
  | some v => some v
  | none => vns.getLast?

/-- Modelled from the spec: `closestPreceedingVnodeIterator` (its source file
is not among the given sources).  §4.3.9: scan the finger table from `M-1`
down to `0` and the successor list from `R-1` down to `0`, yielding the
non-nil candidates whose id is strictly `between(self.id, key, candidate.id)`;
the interleaving of the two descending streams is approximated by
concatenation (no claim depends on the candidate order). -/
def closestPreceedingCandidates (self : LocalVnodeEmb) (key : Nat) : List Vnode :=
  ((self.finger.reverse ++ self.successors.reverse).filterMap id).filter
    (fun c => between self.vn.id key c.id)

/-- The candidate loop of `FindSuccessors` (`localNode.go`): try each
candidate through the transport, returning the first success with the jump
count increased; `none` when every candidate fails. -/
def findSuccessorsLoop
    (transFind : Vnode → Nat → Nat → Except String (List (Option Vnode) × Nat))
    (n key : Nat) : List Vnode → Option (List (Option Vnode) × Nat)
  | [] => none
  | c :: cs =>
    match transFind c n key with
    | Except.ok (res, val) => some (res, 1 + val)
    | Except.error _ => findSuccessorsLoop transFind n key cs

/-- The fallback scan of `FindSuccessors` (`localNode.go`):
`for i := 1; i <= known-n; i++`, testing `BetweenRightIncl(self.Id,
successors[i].Id, key)`.  The dereference `successors[i].Id` panics on an
interior nil slot (outer `none`); the inner `Option` is the found result
(`(remain, jumps)`), with `none` for falling through the loop. -/
def fallbackScan (selfId key n known : Nat) (succs : List (Option Vnode))
    (i : Nat) : Option (Option (List (Option Vnode) × Nat)) :=
  if _h : i ≤ known - n then
    match succs.getD i none with
    | none => none
    | some v =>
      if betweenRightIncl selfId v.id key then
        let remain := succs.drop i
        some (some ((if n < remain.length then remain.take n else remain), 1))
      else fallbackScan selfId key n known succs (i + 1)
  else some none
termination_by known - n + 1 - i
decreasing_by omega

/-- `localVnode.FindSuccessors` (`localNode.go`).  Recursive calls on peers
go through `transFind` (the transport is not among the given sources); the
candidate order comes from the spec-modelled iterator.  The synthetic
random `finger_lookups` observable is omitted (spec §9 calls it an
instrumentation artifact); the jump count is kept.  `none` models the panics
(slicing `successors[:n]` with `n` beyond the array, and the interior-nil
dereference of the fallback scan). -/
def findSuccessors
    (transFind : Vnode → Nat → Nat → Except String (List (Option Vnode) × Nat))
    (self : LocalVnodeEmb) (n key : Nat) :
    Option (Except String (List (Option Vnode) × Nat)) :=
  if key = self.vn.id ∨ head0 self.successors = none then
    if self.successors.length < n then none
    else some (Except.ok (self.successors.take n, 1))
  else if (match head0 self.successors with
           | some s => betweenRightIncl self.vn.id s.id key
           | none => false) then
    if self.successors.length < n then none
    else some (Except.ok (self.successors.take n, 1))
  else
    match findSuccessorsLoop transFind n key (closestPreceedingCandidates self key) with
    | some res => some (Except.ok res)
    | none =>
      match fallbackScan self.vn.id key n (knownSuccessors self.successors)
          self.successors 1 with
      | none => none
      | some (some res) => some (Except.ok res)
      | some none => some (Except.error "Exhausted all preceeding nodes!")

/-- The nil-trimming loop of `Ring.Lookup` (`ring.go`):
`for successors[len(successors)-1] == nil { successors = successors[:len-1] }`.
Reading the last element of an emptied (or empty) slice is a panic, modelled
by `none`. -/
def trimNils (l : List (Option Vnode)) : Option (List (Option Vnode)) :=
  match l with
  | [] => none
  | a :: t =>
    if (a :: t).getLast (List.cons_ne_nil a t) = none then trimNils (a :: t).dropLast
    else some (a :: t)
termination_by l.length
decreasing_by simp [List.length_dropLast]

/-- `Ring.Lookup` (`ring.go`): reject `n > NumSuccessors`; hash the key; pick
the nearest local vnode; run its `FindSuccessors`; trim trailing nils.  The
hash primitive is the configured parameter `hashF`. -/
def ringLookup (numSuccessors : Nat) (hashF : String → Nat)
    (transFind : Vnode → Nat → Nat → Except String (List (Option Vnode) × Nat))
    (vns : List LocalVnodeEmb) (n : Nat) (key : String) :
    Option (Except String (List (Option Vnode))) :=
  if n > numSuccessors then
    some (Except.error "Cannot ask for more successors than NumSuccessors!")
  else
    match nearestVnode vns (hashF key) with
    | none => none
    | some nearest =>
      match findSuccessors transFind nearest n (hashF key) with
      | none => none
      | some (Except.error e) => some (Except.error e)
      | some (Except.ok (succs, _)) =>
        match trimNils succs with
        | none => none
        | some l => some (Except.ok l)

/-! ## `checkNewSuccessor` (`localNode.go`)

The transport calls (`GetPredecessor`, `Ping`, `FindSuccessors`) are
parameters.  Go's `Ping` takes a possibly-nil `*Vnode` and, per the spec's
transport contract, never raises (the call site discards its error), so it is
a `Option Vnode → Bool` parameter. -/

/-- The successor-list walk inside `checkNewSuccessor` (`localNode.go`):
`for i := 0; i < known; i++`, pinging the *current head* of the list.  A live
head is `Sum.inl` (the `goto CHECK_NEW_SUC` retry, with the list as walked so
far); a dead head at the last known index returns
`Sum.inr (succs, true)` (the `"All known successors dead!"` error) without
touching the list further; a dead head earlier shifts the list left and nils
slot `known-1-i`; falling out of the loop is `Sum.inr (succs, false)`. -/
def cnsWalkLoop (ping : Option Vnode → Bool) (known : Nat) (i : Nat)
    (succs : List (Option Vnode)) : List (Option Vnode) ⊕ (List (Option Vnode) × Bool) :=
  if i < known then
    if ping (head0 succs) then Sum.inl succs
    else if i + 1 = known then Sum.inr (succs, true)
    else cnsWalkLoop ping known (i + 1) ((shiftLeft succs).set (known - 1 - i) none)
  else Sum.inr (succs, false)
termination_by known - i
decreasing_by omega

/-- `localVnode.checkNewSuccessor` (`localNode.go`).  The result is
`(successor list after the call, whether `fail <- true` was signalled,
returned error)`; the `goto CHECK_NEW_SUC` retry consumes one unit of fuel,
and `none` models divergence (fuel exhausted) or the Go panics (empty
successor array, `successors[:R-1]` on a too-short `FindSuccessors` result).
The vnode's predecessor is only read, never written, by this function. -/
def checkNewSuccessor (getPred : Vnode → Except String (Option Vnode))
    (ping : Option Vnode → Bool)
    (findSuccs : Vnode → Nat → Nat → Except String (List (Option Vnode)))
    (numSuccessors selfId : Nat) (pred : Option Vnode) :
    Nat → List (Option Vnode) → Option (List (Option Vnode) × Bool × Except String Unit)
  | 0, _ => none
  | _ + 1, [] => none
  | _ + 1, none :: rest =>
    some (none :: rest, pred.isNone,
      Except.error ("node has no successor " ++ toString selfId))
  | fuel + 1, some succ :: rest =>
    match getPred succ with
    | Except.error e =>
      let known := knownSuccessors (some succ :: rest)
      if 1 < known then
        match cnsWalkLoop ping known 0 (some succ :: rest) with
        | Sum.inl succs' =>
          checkNewSuccessor getPred ping findSuccs numSuccessors selfId pred fuel succs'
        | Sum.inr (succs', true) =>
          some (succs', false, Except.error "All known successors dead!")
        | Sum.inr (succs', false) => some (succs', false, Except.error e)
      else some (some succ :: rest, false, Except.error e)
    | Except.ok maybeSuc =>
      match maybeSuc with
      | some p =>
        if between selfId succ.id p.id then
          match findSuccs p (numSuccessors - 1) p.id with
          | Except.error e2 =>
            some ((some succ :: rest).set 0 (some p), false, Except.error e2)
          | Except.ok res =>
            if res.length < numSuccessors - 1 then none
            else some (some p :: goCopy rest (res.take (numSuccessors - 1)), false,
              Except.ok ())
        else some (some succ :: rest, false, Except.ok ())
      | none => some (some succ :: rest, false, Except.ok ())

/-! ### Generic theory of the deterministic successor walk

`walkFrom step start fuel node` is the cons-style form of the walk: the ids
appended after the seed.  The step function is abstract here; the embedding
instantiates it with `stepOf vns`. -/

/-- Cons-style successor walk: stop on a nil node, on returning to `start`,
or when the fuel (the hop budget `len(ringList)`) runs out. -/
def walkFrom (step : Nat → Option Nat) (start : Nat) : Nat → Option Nat → List Nat
  | 0, _ => []
  | _ + 1, none => []
  | fuel + 1, some x =>
    if x = start then [] else x :: walkFrom step start fuel (step x)

/-- The accumulator-style walk is the seed followed by the cons-style walk. -/
theorem walkAux_eq_append (vns : List LocalVnodeEmb) (start : Nat) :
    ∀ (fuel : Nat) (node : Option Nat) (acc : List Nat),
      walkAux vns start fuel node acc =
        acc ++ walkFrom (stepOf vns) start fuel node := by
  intro fuel
  induction fuel with
  | zero => intro node acc; simp [walkAux, walkFrom]
  | succ n ih =>
    intro node acc
    cases node with
    | none => simp [walkAux, walkFrom]
    | some x =>
      by_cases hx : x = start
      · simp [walkAux, walkFrom, hx]
      · simp only [walkAux, walkFrom, hx, if_false, ih]
        simp

/-- The walk makes at most `fuel` hops. -/
theorem walkFrom_length_le (step : Nat → Option Nat) (start : Nat) :
    ∀ (fuel : Nat) (node : Option Nat),
      (walkFrom step start fuel node).length ≤ fuel := by
  intro fuel
  induction fuel with
  | zero => intro node; simp [walkFrom]
  | succ n ih =>
    intro node
    cases node with
    | none => simp [walkFrom]
    | some x =>
      by_cases hx : x = start
      · simp [walkFrom, hx]
      · simp only [walkFrom, hx, if_false, List.length_cons]
        exact Nat.succ_le_succ (ih (step x))

/-- A walk that stopped before exhausting its fuel gives the same list under
any larger fuel: the stop was caused by the node condition, not the budget. -/
theorem walkFrom_stable (step : Nat → Option Nat) (start : Nat) :
    ∀ (fuel : Nat) (node : Option Nat),
      (walkFrom step start fuel node).length < fuel →
      ∀ g, fuel ≤ g → walkFrom step start g node = walkFrom step start fuel node := by
  intro fuel
  induction fuel with
  | zero => intro node h; omega
  | succ n ih =>
    intro node h g hg
    obtain ⟨g', rfl⟩ : ∃ g', g = g' + 1 := ⟨g - 1, by omega⟩
    have hg' : n ≤ g' := by omega
    cases node with
    | none => simp [walkFrom]
    | some x =>
      by_cases hx : x = start
      · simp [walkFrom, hx]
      · simp only [walkFrom, hx, if_false, List.length_cons] at h ⊢
        have hlt : (walkFrom step start n (step x)).length < n := by omega
        rw [ih (step x) hlt g' hg']

/-- Two stopped walks from the same node agree, whatever their budgets. -/
theorem walkFrom_stopped_eq (step : Nat → Option Nat) (start : Nat)
    (f₁ f₂ : Nat) (node : Option Nat)
    (h₁ : (walkFrom step start f₁ node).length < f₁)
    (h₂ : (walkFrom step start f₂ node).length < f₂) :
    walkFrom step start f₁ node = walkFrom step start f₂ node := by
  rcases le_total f₁ f₂ with h | h
  · rw [walkFrom_stable step start f₁ node h₁ f₂ h]
  · rw [walkFrom_stable step start f₂ node h₂ f₁ h]

/-- Every visited node starts a suffix of the walk that is itself a walk from
that node, with the leftover fuel. -/
theorem walkFrom_mem_suffix (step : Nat → Option Nat) (start : Nat) :
    ∀ (fuel : Nat) (node : Option Nat) (x : Nat),
      x ∈ walkFrom step start fuel node →
      ∃ (pre : List Nat) (f' : Nat), fuel = pre.length + f' ∧
        walkFrom step start fuel node = pre ++ walkFrom step start f' (some x) := by
  intro fuel
  induction fuel with
  | zero => intro node x h; simp [walkFrom] at h
  | succ n ih =>
    intro node x h
    cases node with
    | none => simp [walkFrom] at h
    | some y =>
      by_cases hy : y = start
      · simp [walkFrom, hy] at h
      · simp only [walkFrom, hy, if_false, List.mem_cons] at h
        rcases h with rfl | h
        · exact ⟨[], n + 1, by simp, by simp [walkFrom, hy]⟩
        · obtain ⟨pre, f', hf, heq⟩ := ih (step y) x h
          refine ⟨y :: pre, f', by simp; omega, ?_⟩
          simp only [walkFrom, hy, if_false, List.cons_append, heq]

/-- A walk that stopped before exhausting its fuel visits no node twice and
never visits the start: the step function is deterministic, so a revisit
would make the walk periodic and it could only stop by running out of fuel. -/
theorem walkFrom_stopped_nodup (step : Nat → Option Nat) (start : Nat) :
    ∀ (fuel : Nat) (node : Option Nat),
      (walkFrom step start fuel node).length < fuel →
      (walkFrom step start fuel node).Nodup ∧
        start ∉ walkFrom step start fuel node := by
  intro fuel
  induction fuel with
  | zero => intro node h; omega
  | succ n ih =>
    intro node h
    cases node with
    | none => simp [walkFrom]
    | some x =>
      by_cases hx : x = start
      · simp [walkFrom, hx]
      · simp only [walkFrom, hx, if_false, List.length_cons] at h ⊢
        have hlt : (walkFrom step start n (step x)).length < n := by omega
        obtain ⟨hnd, hst⟩ := ih (step x) hlt
        have hxnot : x ∉ walkFrom step start n (step x) := by
          intro hxmem
          obtain ⟨pre, f', hf, heq⟩ := walkFrom_mem_suffix step start n (step x) x hxmem
          have hslen : (walkFrom step start f' (some x)).length < f' := by
            have := congrArg List.length heq
            simp only [List.length_append] at this
            omega
          have hfull : walkFrom step start (n + 1) (some x) =
              x :: walkFrom step start n (step x) := by
            simp [walkFrom, hx]
          have hfulllen : (walkFrom step start (n + 1) (some x)).length < n + 1 := by
            rw [hfull]; simp; omega
          have heq2 := walkFrom_stopped_eq step start f' (n + 1) (some x) hslen hfulllen
          rw [hfull] at heq2
          have hlen2 := congrArg List.length heq2
          have hlen3 := congrArg List.length heq
          simp only [List.length_append, List.length_cons] at hlen2 hlen3
          omega
        refine ⟨List.nodup_cons.mpr ⟨hxnot, hnd⟩, ?_⟩
        simp only [List.mem_cons, not_or]
        exact ⟨fun hs => hx hs.symm, hst⟩

/-- The walk of `atmostOneRing` on a nonempty snapshot, in closed form. -/
theorem walkIds_cons (first : LocalVnodeEmb) (rest : List LocalVnodeEmb) :
    walkIds (first :: rest) =
      first.vn.id :: walkFrom (stepOf (first :: rest)) first.vn.id
        (first :: rest).length ((head0 first.successors).map (fun v => v.id)) := by
  simp [walkIds, atmostSuccList, walkAux_eq_append]

/-- `atmostOneRing` on a nonempty snapshot compares the walk's length with the
member count. -/
theorem atmostOneRing_cons (first : LocalVnodeEmb) (rest : List LocalVnodeEmb) :
    atmostOneRing (first :: rest) =
      some ((walkIds (first :: rest)).length == (first :: rest).length) := by
  simp [atmostOneRing, atmostSuccList, walkIds]

/-! ## Theorems -/

/-- `successors[0]` is the 0th entry of the array. -/
theorem head0_eq_getD (l : List (Option Vnode)) : head0 l = l.getD 0 none := by
  cases l <;> rfl

/-- The head of a nonempty successor array is one of its entries. -/
theorem head0_mem (l : List (Option Vnode)) (h : l ≠ []) : head0 l ∈ l := by
  cases l with
  | nil => exact absurd rfl h
  | cons a t => exact List.mem_cons_self a t

/-- Go `copy` never changes the destination's length. -/
theorem goCopy_length {α : Type} (dst src : List α) :
    (goCopy dst src).length = dst.length := by
  simp only [goCopy, List.length_append, List.length_take, List.length_drop]
  omega

/-- The left shift keeps the array length. -/
theorem shiftLeft_length (l : List (Option Vnode)) :
    (shiftLeft l).length = l.length :=
  goCopy_length l l.tail

/-- Below the last slot, the left shift moves every entry down by one. -/
theorem shiftLeft_getD (l : List (Option Vnode)) (j : Nat) (h : j + 1 < l.length) :
    (shiftLeft l).getD j none = l.getD (j + 1) none := by
  cases l with
  | nil => simp at h
  | cons a t =>
    unfold shiftLeft goCopy
    simp only [List.tail_cons]
    rw [List.take_of_length_le (by simp)]
    have hj : j < t.length := by
      simpa using h
    rw [List.getD_append _ _ _ _ hj, List.getD_cons_succ]

/-- Setting one slot leaves the others unread. -/
theorem getD_set_ne (l : List (Option Vnode)) (k j : Nat) (a : Option Vnode)
    (h : j ≠ k) : (l.set k a).getD j none = l.getD j none := by
  rw [List.getD_eq_getElem?_getD, List.getElem?_set_ne (fun he => h he.symm),
    ← List.getD_eq_getElem?_getD]

/-- `knownSuccessors` on a list extended by one slot: the new slot wins when
non-nil, otherwise the old value stands. -/
theorem knownSuccessors_append_single (l : List (Option Vnode)) (x : Option Vnode) :
    knownSuccessors (l ++ [x]) =
      if x.isSome then l.length + 1 else knownSuccessors l := by
  unfold knownSuccessors
  rw [List.length_append, List.length_singleton, List.range_succ, List.foldl_append]
  have hagree :
      List.foldl (fun acc i => if ((l ++ [x]).getD i none).isSome then i + 1 else acc) 0
        (List.range l.length) =
      List.foldl (fun acc i => if (l.getD i none).isSome then i + 1 else acc) 0
        (List.range l.length) := by
    apply List.foldl_ext
    intro acc i hi
    rw [List.mem_range] at hi
    rw [List.getD_append]
    exact hi
  rw [hagree]
  have hlast : (l ++ [x]).getD l.length none = x := by
    rw [List.getD_append_right]
    · simp
    · exact le_rfl
  rw [List.foldl_cons, List.foldl_nil, hlast]

/-- `knownSuccessors` never exceeds the array length. -/
theorem knownSuccessors_le_length (l : List (Option Vnode)) :
    knownSuccessors l ≤ l.length := by
  induction l using List.reverseRecOn with
  | nil => simp [knownSuccessors]
  | append_singleton t x ih =>
    rw [knownSuccessors_append_single]
    by_cases hx : x.isSome
    · rw [if_pos hx]
      simp
    · rw [if_neg hx]
      simp only [List.length_append, List.length_singleton]
      omega

/-- A non-nil head makes at least one successor known. -/
theorem knownSuccessors_cons_pos (s : Vnode) (rest : List (Option Vnode)) :
    1 ≤ knownSuccessors (some s :: rest) := by
  induction rest using List.reverseRecOn with
  | nil => simp [knownSuccessors, List.range_succ]
  | append_singleton t x ih =>
    have hsplit : some s :: (t ++ [x]) = (some s :: t) ++ [x] := by simp
    rw [hsplit, knownSuccessors_append_single]
    by_cases hx : x.isSome
    · rw [if_pos hx]
      omega
    · rw [if_neg hx]
      exact ih

/-- The slot `knownSuccessors - 1` holds a non-nil entry (the last one). -/
theorem knownSuccessors_getD_isSome (l : List (Option Vnode))
    (h : 0 < knownSuccessors l) :
    (l.getD (knownSuccessors l - 1) none).isSome := by
  induction l using List.reverseRecOn with
  | nil => simp [knownSuccessors] at h
  | append_singleton t x ih =>
    rw [knownSuccessors_append_single] at h ⊢
    by_cases hx : x.isSome
    · rw [if_pos hx] at h ⊢
      simp only [Nat.add_sub_cancel]
      rw [List.getD_append_right]
      · simpa using hx
      · exact le_rfl
    · rw [if_neg hx] at h ⊢
      have hlt : knownSuccessors t - 1 < t.length := by
        have := knownSuccessors_le_length t
        omega
      rw [List.getD_append _ _ _ _ hlt]
      exact ih h

/-- When every ping reports dead, the successor-list walk of
`checkNewSuccessor` runs to the last known index and stops there with the
`all dead` outcome: the final list still has the original entry from slot
`known - 1` at its head, and the list length is unchanged. -/
theorem cnsWalkLoop_all_dead (ping : Option Vnode → Bool)
    (hping : ∀ o, ping o = false) (known : Nat) :
    ∀ (d i : Nat) (succs : List (Option Vnode)), known - i = d → i < known →
      known ≤ succs.length →
      ∃ succs', cnsWalkLoop ping known i succs = Sum.inr (succs', true) ∧
        head0 succs' = succs.getD (known - 1 - i) none ∧
        succs'.length = succs.length := by
  intro d
  induction d with
  | zero =>
    intro i succs hd hi _
    omega
  | succ m ih =>
    intro i succs hd hi hlen
    rw [cnsWalkLoop, if_pos hi, hping]
    simp only [Bool.false_eq_true, if_false]
    by_cases hlast : i + 1 = known
    · rw [if_pos hlast]
      refine ⟨succs, rfl, ?_, rfl⟩
      rw [head0_eq_getD]
      have h0 : known - 1 - i = 0 := by omega
      rw [h0]
    · rw [if_neg hlast]
      obtain ⟨succs', heq, hhead, hlen'⟩ :=
        ih (i + 1) ((shiftLeft succs).set (known - 1 - i) none) (by omega) (by omega)
          (by rw [List.length_set, shiftLeft_length]; exact hlen)
      have hlen₂ : ((shiftLeft succs).set (known - 1 - i) none).length = succs.length := by
        rw [List.length_set, shiftLeft_length]
      refine ⟨succs', heq, ?_, by omega⟩
      rw [hhead]
      have hne : known - 1 - (i + 1) ≠ known - 1 - i := by omega
      rw [getD_set_ne _ _ _ _ hne, shiftLeft_getD]
      · have hidx : known - 1 - (i + 1) + 1 = known - 1 - i := by omega
        rw [hidx]
      · have : known - 1 - (i + 1) + 1 = known - 1 - i := by omega
        omega

/-- **C5.** If `get_predecessor` on `successors[0]` fails and every ping
reports dead (the transport's `ping` never raises, per the spec's transport
contract), `checkNewSuccessor` returns an error without signalling the fail
channel, and the last known successor — the non-nil entry at slot
`knownSuccessors - 1` of the original list — is still present in the
resulting successor list (it is its head).  This covers both the
`known = 1` case (list untouched, original error returned) and the walk
(`"All known successors dead!"`), which stops at the last known index
without shifting it away. -/
theorem checkNewSuccessor_preserves_last_when_all_dead
    (getPred : Vnode → Except String (Option Vnode)) (ping : Option Vnode → Bool)
    (findSuccs : Vnode → Nat → Nat → Except String (List (Option Vnode)))
    (numSuccessors selfId : Nat) (pred : Option Vnode) (fuel : Nat)
    (s0 : Vnode) (rest : List (Option Vnode)) (e : String)
    (hgp : getPred s0 = Except.error e)
    (hping : ∀ o, ping o = false)
    (hfuel : 0 < fuel) :
    ∃ (succs' : List (Option Vnode)) (msg : String),
      checkNewSuccessor getPred ping findSuccs numSuccessors selfId pred fuel
          (some s0 :: rest) = some (succs', false, Except.error msg) ∧
      head0 succs' =
        (some s0 :: rest).getD (knownSuccessors (some s0 :: rest) - 1) none ∧
      ((some s0 :: rest).getD (knownSuccessors (some s0 :: rest) - 1) none).isSome = true ∧
      (some s0 :: rest).getD (knownSuccessors (some s0 :: rest) - 1) none ∈ succs' := by
  obtain ⟨f, rfl⟩ : ∃ f, fuel = f + 1 := ⟨fuel - 1, by omega⟩
  have hkpos : 1 ≤ knownSuccessors (some s0 :: rest) := knownSuccessors_cons_pos s0 rest
  have hsome := knownSuccessors_getD_isSome (some s0 :: rest) (by omega)
  by_cases hk : 1 < knownSuccessors (some s0 :: rest)
  · obtain ⟨succs', heq, hhead, hlen'⟩ :=
      cnsWalkLoop_all_dead ping hping (knownSuccessors (some s0 :: rest))
        (knownSuccessors (some s0 :: rest)) 0 (some s0 :: rest) (by omega) (by omega)
        (knownSuccessors_le_length _)
    have hhead' : head0 succs' =
        (some s0 :: rest).getD (knownSuccessors (some s0 :: rest) - 1) none := by
      rw [hhead]
      have h0 : knownSuccessors (some s0 :: rest) - 1 - 0 =
          knownSuccessors (some s0 :: rest) - 1 := by omega
      rw [h0]
    refine ⟨succs', "All known successors dead!", ?_, hhead', hsome, ?_⟩
    · simp only [checkNewSuccessor, hgp]
      rw [if_pos hk, heq]
    · have hne : succs' ≠ [] := by
        intro hnil
        rw [hnil] at hlen'
        simp at hlen'
      have hmem := head0_mem succs' hne
      rw [hhead'] at hmem
      exact hmem
  · have hk1 : knownSuccessors (some s0 :: rest) = 1 := by omega
    refine ⟨some s0 :: rest, e, ?_, ?_, hsome, ?_⟩
    · simp only [checkNewSuccessor, hgp]
      rw [if_neg hk]
    · rw [hk1]
      rfl
    · rw [hk1]
      exact List.mem_cons_self _ _

/-- Witness for the C5 theorem: three slots `[s0, nil, s2]` (so
`known = 3`, with an interior nil the walk pings through), a failing
`get_predecessor` and an all-dead ping. -/
theorem checkNewSuccessor_preserves_last_witness :
    ∃ (succs' : List (Option Vnode)) (msg : String),
      checkNewSuccessor (fun _ => Except.error "x") (fun _ => false)
          (fun _ _ _ => Except.error "y") 3 0 none 1
          ([some ⟨0, 5, ""⟩, none, some ⟨2, 9, ""⟩] : List (Option Vnode)) =
        some (succs', false, Except.error msg) ∧
      head0 succs' =
        ([some ⟨0, 5, ""⟩, none, some ⟨2, 9, ""⟩] : List (Option Vnode)).getD
          (knownSuccessors ([some ⟨0, 5, ""⟩, none, some ⟨2, 9, ""⟩] : List (Option Vnode)) - 1) none ∧
      (([some ⟨0, 5, ""⟩, none, some ⟨2, 9, ""⟩] : List (Option Vnode)).getD
          (knownSuccessors ([some ⟨0, 5, ""⟩, none, some ⟨2, 9, ""⟩] : List (Option Vnode)) - 1)
          none).isSome = true ∧
      ([some ⟨0, 5, ""⟩, none, some ⟨2, 9, ""⟩] : List (Option Vnode)).getD
          (knownSuccessors ([some ⟨0, 5, ""⟩, none, some ⟨2, 9, ""⟩] : List (Option Vnode)) - 1) none
        ∈ succs' :=
  checkNewSuccessor_preserves_last_when_all_dead
    (fun _ => Except.error "x") (fun _ => false) (fun _ _ _ => Except.error "y")
    3 0 none 1 ⟨0, 5, ""⟩ [none, some ⟨2, 9, ""⟩] "x" rfl (fun _ => rfl) (by decide)

/-- **C3.** The event generator classifies the ten equiprobable draws of
`rand.Intn(10)` as: draws `0..6` give `"join"`, draws `7..9` all give
`"leave"`, and no draw gives `"fail"` — the `else` branch is unreachable, so
`"fail"` events are never generated (the spec's claimed split 7/2/1 does not
hold; the code's split is 7/3/0).  In particular draw `9`, which the claim
maps to `"fail"`, is classified `"leave"`. -/
theorem generateEvents_fail_unreachable :
    eventOfDraw 9 = "leave" ∧
    ((List.range 10).filter (fun v => eventOfDraw v = "join")).length = 7 ∧
    ((List.range 10).filter (fun v => eventOfDraw v = "leave")).length = 3 ∧
    ((List.range 10).filter (fun v => eventOfDraw v = "fail")).length = 0 ∧
    ∀ draws : List Nat, "fail" ∉ generateEvents ((draws.map (· % 10))) := by
  refine ⟨rfl, by decide, by decide, by decide, ?_⟩
  intro draws hmem
  simp only [generateEvents, List.map_map, List.mem_map] at hmem
  obtain ⟨v, -, hv⟩ := hmem
  have h10 : v % 10 < 10 := Nat.mod_lt _ (by omega)
  simp only [Function.comp_apply, eventOfDraw] at hv
  rcases Nat.lt_or_ge (v % 10) 7 with h | h
  · simp [h] at hv
  · rw [if_neg (by omega), if_pos h10] at hv
    exact absurd hv (by decide)

/-- **C8.** Storage round-trips on one vnode's store: `Get` right after
`Set k v` returns `v`; `Get` right after `Delete k` fails with the
key-not-found error; `Set` and `Delete` always return a nil error; and both
are idempotent — repeating them leaves the store extensionally identical. -/
theorem dataStore_get_set_delete (d : DataStore) (k v : String) :
    ((d.set k v).1.get k = Except.ok v) ∧
    ((d.delete k).1.get k = Except.error ERROR_KEY_NOT_FOUND) ∧
    ((d.set k v).2 = none ∧ (d.delete k).2 = none) ∧
    (((d.set k v).1.set k v).1 = (d.set k v).1) ∧
    (((d.delete k).1.delete k).1 = (d.delete k).1) := by
  refine ⟨?_, ?_, ⟨rfl, rfl⟩, ?_, ?_⟩
  · simp [DataStore.set, DataStore.get]
  · simp [DataStore.delete, DataStore.get]
  · funext k'
    by_cases h : k' = k <;> simp [DataStore.set, h]
  · funext k'
    by_cases h : k' = k <;> simp [DataStore.delete, h]

/-- **C9.** `knownSuccessors` returns one plus the index of the last non-nil
entry (`0` when every entry is nil) — equivalently, the length of the list
after trailing nils are dropped; it is *not* the number of non-nil entries,
as an interior nil shows. -/
theorem knownSuccessors_last_nonnil :
    (∀ l : List (Option Vnode),
        knownSuccessors l = (l.reverse.dropWhile (fun o => o.isNone)).length) ∧
    (∃ l : List (Option Vnode),
        knownSuccessors l ≠ (l.filter (fun o => o.isSome)).length) := by
  constructor
  · intro l
    induction l using List.reverseRecOn with
    | nil => rfl
    | append_singleton l x ih =>
      rw [knownSuccessors_append_single, List.reverse_append]
      cases x with
      | none => simpa using ih
      | some v => simp
  · exact ⟨[some ⟨0, 0, ""⟩, none, some ⟨0, 0, ""⟩], by decide⟩

/-- **C1 (counterexample).** A snapshot on which `atmostOneRing` returns
`true` although the walk's visited ids are not the live-member ids: member 1
points at the dead id 99, so the walk `[1, 99]` leaves the member map at its
final hop, yet its length equals the member count, which is all the code
compares.  This refutes "returns true iff the visited-id set equals the live
set". -/
theorem atmostOneRing_passes_without_covering :
    atmostOneRing
        [⟨⟨0, 1, "h"⟩, [some ⟨9, 99, "h"⟩], []⟩,
         ⟨⟨1, 2, "h"⟩, [some ⟨0, 1, "h"⟩], []⟩] = some true ∧
      (walkIds [⟨⟨0, 1, "h"⟩, [some ⟨9, 99, "h"⟩], []⟩,
         ⟨⟨1, 2, "h"⟩, [some ⟨0, 1, "h"⟩], []⟩]).toFinset ≠
        (liveIds [⟨⟨0, 1, "h"⟩, [some ⟨9, 99, "h"⟩], []⟩,
         ⟨⟨1, 2, "h"⟩, [some ⟨0, 1, "h"⟩], []⟩]).toFinset := by
  decide

/-- **C1 (amended).** On a nonempty snapshot with distinct member ids, and
provided every id the walk visits belongs to a member (the walk never leaves
the live-member map), `atmostOneRing` returns `true` iff the walk visits the
members without repetition and covers them all: the visited-id list is
duplicate-free and its set equals the live-member set.  (Without the proviso
the equivalence fails — see the counterexample — because a walk that exits
the member map at its last hop also reaches the length the code tests.) -/
theorem atmostOneRing_true_iff_nodup_cover (first : LocalVnodeEmb)
    (rest : List LocalVnodeEmb)
    (hnd : (liveIds (first :: rest)).Nodup)
    (hlive : ∀ x ∈ walkIds (first :: rest), x ∈ liveIds (first :: rest)) :
    atmostOneRing (first :: rest) = some true ↔
      ((walkIds (first :: rest)).Nodup ∧
        (walkIds (first :: rest)).toFinset = (liveIds (first :: rest)).toFinset) := by
  have hlive_len : (liveIds (first :: rest)).length = (first :: rest).length := by
    simp [liveIds]
  rw [atmostOneRing_cons]
  constructor
  · intro htrue
    have hlen : (walkIds (first :: rest)).length = (first :: rest).length := by
      have hb := Option.some_inj.mp htrue
      exact beq_iff_eq.mp hb
    have hwalk := walkIds_cons first rest
    have htail_len :
        (walkFrom (stepOf (first :: rest)) first.vn.id (first :: rest).length
          ((head0 first.successors).map (fun v => v.id))).length <
          (first :: rest).length := by
      have hlw := congrArg List.length hwalk
      rw [hlen] at hlw
      simp only [List.length_cons] at hlw ⊢
      omega
    obtain ⟨hnd_t, hstart⟩ :=
      walkFrom_stopped_nodup (stepOf (first :: rest)) first.vn.id
        (first :: rest).length ((head0 first.successors).map (fun v => v.id)) htail_len
    have hwalk_nd : (walkIds (first :: rest)).Nodup := by
      rw [hwalk]
      exact List.nodup_cons.mpr ⟨hstart, hnd_t⟩
    refine ⟨hwalk_nd, ?_⟩
    apply Finset.eq_of_subset_of_card_le
    · intro x hx
      exact List.mem_toFinset.mpr (hlive x (List.mem_toFinset.mp hx))
    · rw [List.toFinset_card_of_nodup hwalk_nd, List.toFinset_card_of_nodup hnd,
        hlive_len, hlen]
  · rintro ⟨hwnd, hset⟩
    have hlen : (walkIds (first :: rest)).length = (first :: rest).length := by
      calc (walkIds (first :: rest)).length
          = (walkIds (first :: rest)).toFinset.card :=
            (List.toFinset_card_of_nodup hwnd).symm
        _ = (liveIds (first :: rest)).toFinset.card := by rw [hset]
        _ = (liveIds (first :: rest)).length := List.toFinset_card_of_nodup hnd
        _ = (first :: rest).length := hlive_len
    simp [hlen]

/-- Witness for the amended C1 theorem: a healthy two-member ring
(1 → 2 → 1) satisfies the hypotheses, and the equivalence holds there. -/
theorem atmostOneRing_true_iff_nodup_cover_witness :
    atmostOneRing
        [⟨⟨0, 1, ""⟩, [some ⟨1, 2, ""⟩], []⟩,
         ⟨⟨1, 2, ""⟩, [some ⟨0, 1, ""⟩], []⟩] = some true ↔
      ((walkIds [⟨⟨0, 1, ""⟩, [some ⟨1, 2, ""⟩], []⟩,
         ⟨⟨1, 2, ""⟩, [some ⟨0, 1, ""⟩], []⟩]).Nodup ∧
        (walkIds [⟨⟨0, 1, ""⟩, [some ⟨1, 2, ""⟩], []⟩,
         ⟨⟨1, 2, ""⟩, [some ⟨0, 1, ""⟩], []⟩]).toFinset =
          (liveIds [⟨⟨0, 1, ""⟩, [some ⟨1, 2, ""⟩], []⟩,
         ⟨⟨1, 2, ""⟩, [some ⟨0, 1, ""⟩], []⟩]).toFinset) :=
  atmostOneRing_true_iff_nodup_cover
    ⟨⟨0, 1, ""⟩, [some ⟨1, 2, ""⟩], []⟩
    [⟨⟨1, 2, ""⟩, [some ⟨0, 1, ""⟩], []⟩]
    (by decide) (by decide)

/-- **C10.** The `SkipSuccessor` handler panics exactly when the head of the
successor list is nil: it dereferences `successors[0]` unconditionally, so it
is total only under the precondition `successors[0] ≠ nil`, and for a nil head
the nil-dereference (panic) branch is taken instead of an error return. -/
theorem skipSuccessor_total_iff_head_nonnil (succs : List (Option Vnode)) (s : Vnode) :
    skipSuccessor succs s = none ↔ head0 succs = none := by
  unfold skipSuccessor
  cases h : head0 succs with
  | none => simp [h]
  | some v =>
    simp only [h]
    split <;> simp

/-- **C4.** The old join variant asks the seed for a single successor of
`self.id` and writes it into slot `0` only, leaving every other slot nil; the
corrected variant asks for `NumSuccessors` successors of `self.id` and copies
the whole returned list into the successor array in order (the remaining
slots staying nil).  Both operate on the freshly initialized all-nil array. -/
theorem join_old_single_new_full
    (fs fs2 : Nat → Nat → Except String (List (Option Vnode)))
    (selfId numSuccessors : Nat) (s s2 : Vnode) (rest rest2 : List (Option Vnode))
    (h1 : fs 1 selfId = Except.ok (some s :: rest))
    (h2 : fs2 numSuccessors selfId = Except.ok (some s2 :: rest2))
    (hR : 1 ≤ numSuccessors)
    (hlen : rest2.length < numSuccessors) :
    joinOld fs selfId (List.replicate numSuccessors none) =
      some (Except.ok s, some s :: List.replicate (numSuccessors - 1) none) ∧
    joinNew fs2 numSuccessors selfId (List.replicate numSuccessors none) =
      some (Except.ok s2,
        (some s2 :: rest2) ++ List.replicate (numSuccessors - 1 - rest2.length) none) := by
  constructor
  · unfold joinOld
    rw [h1]
    have hrepl : (List.replicate numSuccessors (none : Option Vnode)) =
        none :: List.replicate (numSuccessors - 1) none := by
      cases numSuccessors with
      | zero => omega
      | succ m => simp [List.replicate_succ]
    simp [hrepl]
  · unfold joinNew
    rw [h2]
    dsimp only
    have hle : ¬ ((List.replicate numSuccessors (none : Option Vnode)).length
        < (some s2 :: rest2).length) := by
      simp only [List.length_replicate, List.length_cons]
      omega
    rw [if_neg hle]
    have hcopy : goCopy (List.replicate numSuccessors (none : Option Vnode))
        (some s2 :: rest2) =
        (some s2 :: rest2) ++ List.replicate (numSuccessors - 1 - rest2.length) none := by
      unfold goCopy
      rw [List.take_of_length_le (by simp [Nat.succ_le_iff]; omega), List.drop_replicate]
      simp only [List.length_cons]
      congr 2
      omega
    simp [hcopy]

/-- **C7.** `Lookup` with `n` above the configured `NumSuccessors` fails with
the configuration error before doing anything else: the result is the error,
and it is independent of the hash function, the transport (so no
`find_successors` call is made), the ring's vnodes, and even the key; the
embedding is pure, so no state is mutated. -/
theorem lookup_rejects_large_n (numSuccessors : Nat) (hashF hashG : String → Nat)
    (f g : Vnode → Nat → Nat → Except String (List (Option Vnode) × Nat))
    (vns vns2 : List LocalVnodeEmb) (n : Nat) (key key2 : String)
    (h : numSuccessors < n) :
    ringLookup numSuccessors hashF f vns n key =
      some (Except.error "Cannot ask for more successors than NumSuccessors!") ∧
    ringLookup numSuccessors hashF f vns n key =
      ringLookup numSuccessors hashG g vns2 n key2 := by
  constructor <;> simp [ringLookup, h]

/-- Witness for the C7 theorem: `n = 3` against `NumSuccessors = 2`. -/
theorem lookup_rejects_large_n_witness :
    ringLookup 2 (fun _ => 0) (fun _ _ _ => Except.error "a") [] 3 "k" =
      some (Except.error "Cannot ask for more successors than NumSuccessors!") ∧
    ringLookup 2 (fun _ => 0) (fun _ _ _ => Except.error "a") [] 3 "k" =
      ringLookup 2 (fun _ => 1) (fun _ _ _ => Except.error "b") [] 3 "k2" :=
  lookup_rejects_large_n 2 (fun _ => 0) (fun _ => 1)
    (fun _ _ _ => Except.error "a") (fun _ _ _ => Except.error "b")
    [] [] 3 "k" "k2" (by decide)

/-- The single-vnode analysis shared by the C2 counterexample and the amended
C2 theorem: `Create` with one vnode leaves every successor slot nil and
`Lookup(1, k)` then panics in its nil-trimming loop. -/
theorem singleVnodeCreateLookup (numSuccessors hashBits : Nat) (v : Vnode)
    (hashF : String → Nat)
    (tf : Vnode → Nat → Nat → Except String (List (Option Vnode) × Nat))
    (key : String) (hR : 1 ≤ numSuccessors) :
    createVnodes numSuccessors hashBits [v] =
      [⟨v, List.replicate numSuccessors none, List.replicate hashBits none⟩] ∧
    ringLookup numSuccessors hashF tf (createVnodes numSuccessors hashBits [v])
      1 key = none := by
  have hset : setLocalSuccessors numSuccessors [v] =
      [List.replicate numSuccessors none] := by
    unfold setLocalSuccessors goMin
    have h1 : ¬ ((numSuccessors : Int) < 0) := by omega
    have h2 : ∀ i : Nat, ¬ (Int.ofNat i < 0) := fun i => by
      rw [Int.ofNat_eq_natCast]
      omega
    simp only [List.length_singleton, Nat.cast_one, sub_self, h1, if_false, h2,
      List.map_const']
    simp
  have hcreate : createVnodes numSuccessors hashBits [v] =
      [⟨v, List.replicate numSuccessors none, List.replicate hashBits none⟩] := by
    unfold createVnodes
    rw [hset]
    rfl
  refine ⟨hcreate, ?_⟩
  rw [hcreate]
  have hhead : head0 (List.replicate numSuccessors (none : Option Vnode)) = none := by
    cases numSuccessors with
    | zero => rfl
    | succ m => simp [head0, List.replicate_succ]
  have hnear : nearestVnode
      [⟨v, List.replicate numSuccessors none, List.replicate hashBits none⟩]
      (hashF key) =
      some ⟨v, List.replicate numSuccessors none, List.replicate hashBits none⟩ := by
    unfold nearestVnode
    rcases h : List.find? (fun u => decide (u.vn.id < hashF key))
        [(⟨v, List.replicate numSuccessors none, List.replicate hashBits none⟩ :
          LocalVnodeEmb)].reverse with _ | u
    · rw [h]
      simp
    · have hu : u ∈ [(⟨v, List.replicate numSuccessors none,
          List.replicate hashBits none⟩ : LocalVnodeEmb)].reverse :=
        List.mem_of_find?_eq_some h
      simp only [List.reverse_singleton, List.mem_singleton] at hu
      rw [h, hu]
  have htake : (List.replicate numSuccessors (none : Option Vnode)).take 1 = [none] := by
    rw [List.take_replicate]
    have hmin : min 1 numSuccessors = 1 := by omega
    rw [hmin]
    rfl
  have hfind : findSuccessors tf
      ⟨v, List.replicate numSuccessors none, List.replicate hashBits none⟩
      1 (hashF key) = some (Except.ok ([none], 1)) := by
    unfold findSuccessors
    rw [if_pos (Or.inr hhead)]
    rw [if_neg (by simp; omega)]
    rw [htake]
  have htrim : trimNils [none] = none := by
    unfold trimNils
    simp only [List.getLast_singleton, if_pos rfl, List.dropLast_single]
    unfold trimNils
    rfl
  unfold ringLookup
  rw [if_neg (by omega)]
  simp only [hnear, hfind, htrim]

/-- **C2 (counterexample).** A ring created with one vnode (default
configuration `R = 8`, `M = 160`): after `Create` the vnode's
`successors[0]` is nil, not its own handle (`setLocalSuccessors` fills
`min(R, numV-1) = 0` slots), and `Lookup(1, k)` does not return the vnode:
`FindSuccessors` answers `[nil]`, and the nil-trimming loop of `Lookup` then
reads the last element of the emptied slice — a panic, not a result. -/
theorem create_single_vnode_counterexample :
    head0 ((createVnodes 8 160 [⟨0, 5, "local"⟩]).headD
        ⟨⟨0, 0, ""⟩, [], []⟩).successors ≠ some ⟨0, 5, "local"⟩ ∧
    ringLookup 8 (fun _ => 3) (fun _ _ _ => Except.error "dead")
      (createVnodes 8 160 [⟨0, 5, "local"⟩]) 1 "foo" = none := by
  have h := singleVnodeCreateLookup 8 160 ⟨0, 5, "local"⟩ (fun _ => 3)
    (fun _ _ _ => Except.error "dead") "foo" (by decide)
  refine ⟨?_, h.2⟩
  rw [h.1]
  decide

/-- **C2 (amended).** For a ring created with `num_vnodes = 1` and any
`NumSuccessors = R ≥ 1`: after `Create` every successor slot of the single
vnode is nil (`setLocalSuccessors` initializes `min(R, 0) = 0` slots) —
in particular `successors[0]` is nil, not the vnode itself — and for every
key, `Lookup(1, k)` panics in its nil-trimming loop instead of returning the
vnode: `FindSuccessors` returns `[nil]` without error, trimming empties the
slice, and the loop then reads the last element of the empty slice. -/
theorem create_single_vnode_amended (numSuccessors hashBits : Nat) (v : Vnode)
    (hashF : String → Nat)
    (tf : Vnode → Nat → Nat → Except String (List (Option Vnode) × Nat))
    (key : String) (hR : 1 ≤ numSuccessors) :
    createVnodes numSuccessors hashBits [v] =
      [⟨v, List.replicate numSuccessors none, List.replicate hashBits none⟩] ∧
    ringLookup numSuccessors hashF tf (createVnodes numSuccessors hashBits [v])
      1 key = none :=
  singleVnodeCreateLookup numSuccessors hashBits v hashF tf key hR

/-- Witness for the amended C2 theorem, at the default configuration
(`R = 8`, `M = 160`). -/
theorem create_single_vnode_amended_witness :
    createVnodes 8 160 [⟨0, 5, "local"⟩] =
      [⟨⟨0, 5, "local"⟩, List.replicate 8 none, List.replicate 160 none⟩] ∧
    ringLookup 8 (fun _ => 3) (fun _ _ _ => Except.error "dead")
      (createVnodes 8 160 [⟨0, 5, "local"⟩]) 1 "foo" = none :=
  create_single_vnode_amended 8 160 ⟨0, 5, "local"⟩ (fun _ => 3)
    (fun _ _ _ => Except.error "dead") "foo" (by decide)

/-- Witness for the C4 theorem: a seed answering `[some ⟨1, 5, "x"⟩]` to both
queries, on two-slot arrays. -/
theorem join_old_single_new_full_witness :
    joinOld (fun _ _ => Except.ok [some ⟨1, 5, "x"⟩]) 3 (List.replicate 2 none) =
      some (Except.ok ⟨1, 5, "x"⟩, [some ⟨1, 5, "x"⟩, none]) ∧
    joinNew (fun _ _ => Except.ok [some ⟨1, 5, "x"⟩]) 2 3 (List.replicate 2 none) =
      some (Except.ok ⟨1, 5, "x"⟩, [some ⟨1, 5, "x"⟩, none]) := by
  have h := join_old_single_new_full
    (fun _ _ => Except.ok [some ⟨1, 5, "x"⟩]) (fun _ _ => Except.ok [some ⟨1, 5, "x"⟩])
    3 2 ⟨1, 5, "x"⟩ ⟨1, 5, "x"⟩ [] [] rfl rfl (by decide) (by decide)
  simpa using h

/-- **C6.** The `Notify` handler adopts the caller as predecessor (firing the
`NewPredecessor` delegate) exactly when the old predecessor was nil or the
caller's id lay strictly between the old predecessor's id and `self.id`; the
resulting predecessor is the caller when it adopts and the old one otherwise;
and in every case it returns the vnode's successor list with a nil error. -/
theorem notify_adopts_iff (pred : Option Vnode) (selfId : Nat)
    (succs : List (Option Vnode)) (caller : Vnode) :
    ((notifyHandler pred selfId succs caller).2.2.2 = true ↔
      (pred = none ∨
       (∃ p, pred = some p ∧ between p.id selfId caller.id = true))) ∧
    (notifyHandler pred selfId succs caller).1 =
      (if (notifyHandler pred selfId succs caller).2.2.2 then some caller else pred) ∧
    (notifyHandler pred selfId succs caller).2.1 = succs ∧
    (notifyHandler pred selfId succs caller).2.2.1 = none := by
  cases pred with
  | none => simp [notifyHandler]
  | some p =>
    unfold notifyHandler
    by_cases hb : between p.id selfId caller.id = true
    · simp [hb]
    · simp only [hb, if_false]
      refine ⟨?_, rfl, rfl, rfl⟩
      constructor
      · intro h
        exact absurd h (by simp)
      · rintro (h | ⟨q, hq, hqb⟩)
        · exact absurd h (by simp)
        · obtain rfl := Option.some_inj.mp hq
          exact absurd hqb hb

